import Mathlib

/-!
# Verification of the Azure SQL AI assistant core (`src/index.ts`)

Shallow embedding of the three classes of `src/index.ts`:

* `SQLSchemaInspector` — connection lifecycle (`connect`, `disconnect`,
  `executeQuery`) and the schema-document builder (`inspectSchema`).
* `SQLQueryAssistant` — `generateSQLQuery` / `formatResponse` post-processing
  (`cleanQuery` fence stripping, `content || ""` defaulting).
* `SQLAnalyzer` — the four-stage pipeline `analyzeAndQuery` and `disconnect`.

Strings are modelled as `List Char` where character-level scanning matters
(the `cleanQuery` regex replacements) and as `String` elsewhere.  External
collaborators (the mssql driver and the OpenAI client) are modelled by
explicit outcome parameters (`Except String _`), as the code only observes
their success value or thrown error message.
-/

namespace AzureSqlAssistant

/-! ## `SQLQueryAssistant.cleanQuery` (src/index.ts lines 309-314)

```js
private cleanQuery(query) {
  return query
    .replace(/```sql\n?/g, "")
    .replace(/```/g, "")
    .replace(/^\s+|\s+$/g, "");
}
```

Each `replace` with the `g` flag scans left to right; at each position it
removes the pattern if it matches there (continuing after the removed text),
otherwise keeps the character and advances by one.  `bq` is the backtick
character (code point 96). -/

def bq : Char := Char.ofNat 96

/-- The three-backtick token of the regex `/```/`. -/
def tickTag : List Char := [bq, bq, bq]

/-- The `\x60\x60\x60sql` token of the regex (backticks written via `bq`). -/
def fenceTag : List Char := [bq, bq, bq, 's', 'q', 'l']

/-- One left-to-right pass of `.replace(/```sql\n?/g, "")`: at each position,
if the next six characters are ```` ```sql ```` the match is removed together
with a directly following newline (the greedy `\n?`); otherwise the character
is kept and scanning advances. -/
def stripFence : List Char → List Char
  | [] => []
  | [c] => [c]
  | [c, d] => [c, d]
  | [c, d, e] => [c, d, e]
  | [c, d, e, f] => [c, d, e, f]
  | [c, d, e, f, g] => [c, d, e, f, g]
  | c :: d :: e :: f :: g :: h :: rest =>
    if c == bq && d == bq && e == bq && f == 's' && g == 'q' && h == 'l' then
      match rest with
      | [] => []
      | n :: rest' => if n == '\n' then stripFence rest' else stripFence (n :: rest')
    else
      c :: stripFence (d :: e :: f :: g :: h :: rest)

/-- One left-to-right pass of `.replace(/```/g, "")`. -/
def stripTicks : List Char → List Char
  | [] => []
  | [c] => [c]
  | [c, d] => [c, d]
  | c :: d :: e :: rest =>
    if c == bq && d == bq && e == bq then stripTicks rest
    else c :: stripTicks (d :: e :: rest)

/-- JavaScript's `\s` character class (the code points matched by `\s` in
ECMAScript regular expressions). -/
def isJsSpace (c : Char) : Bool :=
  c == ' ' || c == '\t' || c == '\n' || c == '\r' ||
  c == '\x0b' || c == '\x0c' ||
  c.val == 160 || c.val == 0x1680 ||
  (0x2000 ≤ c.val && c.val ≤ 0x200a) ||
  c.val == 0x2028 || c.val == 0x2029 || c.val == 0x202f ||
  c.val == 0x205f || c.val == 0x3000 || c.val == 0xfeff

/-- Drop the leading `\s+` run (the `^\s+` alternative of the trim regex). -/
def trimL (l : List Char) : List Char := l.dropWhile isJsSpace

/-- Drop the trailing `\s+` run (the `\s+$` alternative of the trim regex). -/
def trimR (l : List Char) : List Char := (l.reverse.dropWhile isJsSpace).reverse

/-- `.replace(/^\s+|\s+$/g, "")`: removes the leading and the trailing
whitespace run (the two alternatives are anchored, so that is all the global
scan can match). -/
def trim (l : List Char) : List Char := trimR (trimL l)

/-- `SQLQueryAssistant.cleanQuery`, on character lists: the three `replace`
passes in source order. -/
def cleanQuery (l : List Char) : List Char := trim (stripTicks (stripFence l))

/-- `cleanQuery` on `String` (the type the TypeScript method works on). -/
def cleanQueryS (s : String) : String := String.mk (cleanQuery s.data)

/-- `generateSQLQuery`'s post-processing of the model reply
(src/index.ts line 282): `this.cleanQuery(response.choices[0].message.content || "")`.
`none` models a `null` content; `content || ""` maps both `null` and `""`
to `""`. -/
def generateSQLQueryFn (content : Option String) : String :=
  cleanQueryS (content.getD "")

/-- `formatResponse`'s result (src/index.ts line 306):
`response.choices[0].message.content || ""`. -/
def formatResponseFn (content : Option String) : String :=
  content.getD ""

/-! ### Idempotence of `cleanQuery`

After one pass of `.replace(/```/g, "")`, every maximal backtick run in the
output has length at most two, so a second application of either replacement
finds nothing, and trimming an already-trimmed string is the identity. -/

/-- Whether three consecutive backticks occur anywhere in the list. -/
def hasTriple : List Char → Bool
  | c :: d :: e :: rest => (c == bq && d == bq && e == bq) || hasTriple (d :: e :: rest)
  | _ => false

/-- Length of the leading backtick run. -/
def leadTicks (l : List Char) : Nat := (l.takeWhile (· == bq)).length

/-! ## `SQLSchemaInspector.inspectSchema` rendering (src/index.ts lines 68-246)

The catalog rows consumed by `inspectSchema` are modelled by one record type
per query category, carrying exactly the fields the rendering code reads.
`Option String` models SQL `NULL`-able text columns.  `jsTruthy` is
JavaScript truthiness restricted to `string | null` (both `null` and `""`
are falsy), used where the code tests a value with a bare `if`. -/

structure ColumnMeta where
  COLUMN_NAME : String
  DATA_TYPE : String
  IS_NULLABLE : String
  COLUMN_DEFAULT : Option String
  COLUMN_DESCRIPTION : Option String
deriving DecidableEq

structure TableMeta where
  TABLE_NAME : String
  TABLE_DESCRIPTION : Option String
deriving DecidableEq

structure FKMeta where
  COLUMN_NAME : String
  REFERENCED_TABLE_NAME : String
  REFERENCED_COLUMN_NAME : String
deriving DecidableEq

structure IndexRow where
  INDEX_NAME : String
  COLUMN_NAME : String
  is_unique : Bool
deriving DecidableEq

/-- All catalog data fetched for one table (columns in ordinal order,
primary-key names, foreign-key rows, non-primary-key index rows ordered by
index name and key ordinal, as the five catalog queries return them). -/
structure TableData where
  table : TableMeta
  columns : List ColumnMeta
  primaryKeys : List String
  foreignKeys : List FKMeta
  indexes : List IndexRow
deriving DecidableEq

def jsTruthy : Option String → Bool
  | none => false
  | some s => !(s == "")

/-- JavaScript `Array.prototype.join(sep)`. -/
def joinSep (sep : String) : List String → String
  | [] => ""
  | [x] => x
  | x :: xs => x ++ sep ++ joinSep sep xs

/-- One column line (lines 129-149): name, type, bracketed qualifiers when
`properties` is non-empty (`NOT NULL` when `IS_NULLABLE === "NO"`, the
default when `COLUMN_DEFAULT !== null`), then an indented description line
when the description is truthy. -/
def renderColumn (c : ColumnMeta) : String :=
  let props : List String :=
    (if c.IS_NULLABLE == "NO" then ["NOT NULL"] else []) ++
    (match c.COLUMN_DEFAULT with
     | some d => ["DEFAULT: " ++ d]
     | none => [])
  let line := "- " ++ c.COLUMN_NAME ++ " (" ++ c.DATA_TYPE ++ ")"
  let line := if props.length > 0 then line ++ " [" ++ joinSep ", " props ++ "]" else line
  let line := if jsTruthy c.COLUMN_DESCRIPTION then
      line ++ "\n  Description: " ++ c.COLUMN_DESCRIPTION.getD "" else line
  line ++ "\n"

/-- The `Description:` line of a table header (lines 122-124), emitted only
when the extended description is truthy. -/
def descPart (t : TableMeta) : String :=
  if jsTruthy t.TABLE_DESCRIPTION then
    "Description: " ++ t.TABLE_DESCRIPTION.getD "" ++ "\n"
  else ""

/-- The mandatory columns block (lines 128-149). -/
def columnsPart (cols : List ColumnMeta) : String :=
  "Columns:\n" ++ String.join (cols.map renderColumn)

/-- The optional primary-keys block (lines 162-167). -/
def pkPart (pks : List String) : String :=
  if pks.length > 0 then
    "\nPrimary Keys:\n" ++ String.join (pks.map (fun k => "- " ++ k ++ "\n"))
  else ""

def renderFK (fk : FKMeta) : String :=
  "- " ++ fk.COLUMN_NAME ++ " -> " ++ fk.REFERENCED_TABLE_NAME ++ "(" ++
    fk.REFERENCED_COLUMN_NAME ++ ")\n"

/-- The optional foreign-keys block (lines 186-191). -/
def fkPart (fks : List FKMeta) : String :=
  if fks.length > 0 then "\nForeign Keys:\n" ++ String.join (fks.map renderFK) else ""

/-- One step of filling the `uniqueIndexes` map (lines 216-226): a JavaScript
`Map` keeps first-insertion order of keys; an existing key gets the column
appended, a new key is appended at the end with the current row's
`is_unique` flag. -/
def addIndexRow (m : List (String × List String × Bool)) (r : IndexRow) :
    List (String × List String × Bool) :=
  if m.any (fun e => e.1 == r.INDEX_NAME) then
    m.map (fun e =>
      if e.1 == r.INDEX_NAME then (e.1, e.2.1 ++ [r.COLUMN_NAME], e.2.2) else e)
  else
    m ++ [(r.INDEX_NAME, [r.COLUMN_NAME], r.is_unique)]

/-- The `uniqueIndexes` map after the `indexes.forEach` loop, as an
insertion-ordered association list. -/
def groupIndexes (rows : List IndexRow) : List (String × List String × Bool) :=
  rows.foldl addIndexRow []

/-- One rendered index line (lines 228-232). -/
def renderIndexLine (g : String × List String × Bool) : String :=
  "- " ++ g.1 ++ (if g.2.2 then " (UNIQUE)" else "") ++ ": " ++
    joinSep ", " g.2.1 ++ "\n"

/-- The optional indexes block (lines 209-233). -/
def ixPart (ixs : List IndexRow) : String :=
  if ixs.length > 0 then
    "\nIndexes:\n" ++ String.join ((groupIndexes ixs).map renderIndexLine)
  else ""

/-- One table section (lines 120-235): header, optional description,
separator, columns block, optional primary-key / foreign-key / index blocks,
two trailing newlines. -/
def renderTable (td : TableData) : String :=
  "Table: " ++ td.table.TABLE_NAME ++ "\n" ++
  descPart td.table ++
  "----------------------------------------\n" ++
  columnsPart td.columns ++
  pkPart td.primaryKeys ++
  fkPart td.foreignKeys ++
  ixPart td.indexes ++
  "\n\n"

/-- The whole schema document (lines 91-238): the title, then each table's
section accumulated in catalog enumeration order. -/
def buildDocument (tds : List TableData) : String :=
  tds.foldl (fun acc td => acc ++ renderTable td) "Database Schema:\n=================\n\n"

/-- The distinct index names of a row sequence, one per name, in first-seen
order (specification-side description of the `Map`'s key order). -/
def firstSeenNames : List IndexRow → List String
  | [] => []
  | r :: rows =>
    r.INDEX_NAME :: firstSeenNames (rows.filter (fun x => !(x.INDEX_NAME == r.INDEX_NAME)))
termination_by l => l.length
decreasing_by
  simp only [List.length_cons]
  exact Nat.lt_succ_of_le (List.length_filter_le _ _)

/-! ## Connection lifecycle and the four-stage pipeline

`SQLSchemaInspector.connect` / `disconnect` / `executeQuery` (lines 39-66)
and `SQLAnalyzer.analyzeAndQuery` / `disconnect` (lines 326-352).  The
connection pool is an opaque handle (`Pool`); driver and model calls are
modelled by their outcomes: `openR` is the outcome of
`new sql.ConnectionPool(config).connect()`, `qres` of
`this.pool!.request().query(q)`, `catalogData` of the catalog walk,
`genOutcome`/`fmtOutcome` of the two chat-completion calls (the `Option
String` being the possibly-null message content). -/

abbrev Pool := Nat

abbrev Rows := List Nat

/-- `connect` (lines 39-51): no-op when a pool exists, otherwise open one;
an opening failure is wrapped as `Failed to connect to database: …`.
Returns (outcome, new pool state, whether a driver connect call was made). -/
def connectFn (st : Option Pool) (openR : Except String Pool) :
    Except String Unit × Option Pool × Bool :=
  match st with
  | some p => (Except.ok (), some p, false)
  | none =>
    match openR with
    | Except.ok p => (Except.ok (), some p, true)
    | Except.error e => (Except.error ("Failed to connect to database: " ++ e), none, false)

/-- `disconnect` (lines 53-58): close and clear the pool when present,
otherwise do nothing; either way no pool remains. -/
def disconnectFn (st : Option Pool) : Option Pool :=
  match st with
  | some _ => none
  | none => none

/-- `executeQuery` (lines 60-66): connect first when no pool is live, then
run the query through `this.pool!`.  The outer `none` marks the one spot
where the non-null assertion `this.pool!` would crash on a null pool. -/
def executeQueryFn (st : Option Pool) (openR : Except String Pool)
    (qres : Except String Rows) : Option (Except String Rows × Option Pool) :=
  match st with
  | some p => some (qres, some p)
  | none =>
    match connectFn none openR with
    | (Except.error e, st1, _) => some (Except.error e, st1)
    | (Except.ok _, st1, _) =>
      match st1 with
      | some _ => some (qres, st1)
      | none => none

/-- `inspectSchema` (lines 68-246): connect, guard against a null pool,
walk the catalog (abstracted by `catalogData`; on success the document is
`buildDocument`), and wrap every failure as
`Failed to inspect database schema: …`. -/
def inspectSchemaFn (st : Option Pool) (openR : Except String Pool)
    (catalogData : Except String (List TableData)) :
    Except String String × Option Pool :=
  match connectFn st openR with
  | (Except.error e, st1, _) =>
    (Except.error ("Failed to inspect database schema: " ++ e), st1)
  | (Except.ok _, st1, _) =>
    match st1 with
    | none =>
      (Except.error
        "Failed to inspect database schema: Failed to establish database connection", none)
    | some p =>
      match catalogData with
      | Except.ok tds => (Except.ok (buildDocument tds), some p)
      | Except.error e => (Except.error ("Failed to inspect database schema: " ++ e), some p)

/-- `SQLAnalyzer.analyzeAndQuery` (lines 326-348): INTROSPECT → GENERATE →
EXECUTE → FORMAT in order, with the single catch wrapping any stage failure
as `Failed to analyze and query: …`.  Returns (result, final pool state,
whether `formatResponse` was invoked); the outer `none` propagates
`executeQuery`'s impossible null-pool crash. -/
def analyzeAndQueryFn (st : Option Pool) (openR : Except String Pool)
    (catalogData : Except String (List TableData))
    (genOutcome : Except String (Option String))
    (execOutcome : Except String Rows)
    (fmtOutcome : Except String (Option String)) :
    Option (Except String String × Option Pool × Bool) :=
  match inspectSchemaFn st openR catalogData with
  | (Except.error e, st1) =>
    some (Except.error ("Failed to analyze and query: " ++ e), st1, false)
  | (Except.ok _schema, st1) =>
    match genOutcome with
    | Except.error e => some (Except.error ("Failed to analyze and query: " ++ e), st1, false)
    | Except.ok content =>
      let _query := generateSQLQueryFn content
      match executeQueryFn st1 openR execOutcome with
      | none => none
      | some (Except.error e, st2) =>
        some (Except.error ("Failed to analyze and query: " ++ e), st2, false)
      | some (Except.ok _rows, st2) =>
        match fmtOutcome with
        | Except.error e =>
          some (Except.error ("Failed to analyze and query: " ++ e), st2, true)
        | Except.ok content2 => some (Except.ok (formatResponseFn content2), st2, true)

/-! ### Append lemmas for the two replacement passes

The round-trip claim wraps a payload as `` ```sql\n`` ++ s ++ ``\n``` ``.
The opening fence is always the first match of the first pass; the closing
fence interacts with the payload only when the payload itself ends in a
matched `` ```sql `` (whose greedy `\n?` then swallows the inserted newline),
so the first pass leaves either `stripFence s ++ "\n```"` or
`stripFence s ++ "```"` behind, and the second and third passes erase the
difference. -/

theorem stripTicks_append_ticks (X : List Char) :
    stripTicks (X ++ tickTag) = stripTicks X := by
  suffices h : ∀ n (X : List Char), X.length ≤ n →
      stripTicks (X ++ tickTag) = stripTicks X from h X.length X le_rfl
  intro n
  induction n with
  | zero =>
    intro X hX
    have hnil : X = [] := List.eq_nil_of_length_eq_zero (Nat.le_zero.mp hX)
    subst hnil; decide
  | succ n ih =>
    intro X hX
    rcases X with _ | ⟨c, _ | ⟨d, _ | ⟨e, rest⟩⟩⟩
    · decide
    · by_cases hc : c = bq
      · subst hc; decide
      · have hc' : (c == bq) = false := by simpa using hc
        simp [stripTicks, tickTag, hc']
    · by_cases hc : c = bq
      · subst hc
        by_cases hd : d = bq
        · subst hd; decide
        · have hd' : (d == bq) = false := by simpa using hd
          simp [stripTicks, tickTag, hd']
      · have hc' : (c == bq) = false := by simpa using hc
        by_cases hd : d = bq
        · subst hd; simp [stripTicks, tickTag, hc']
        · have hd' : (d == bq) = false := by simpa using hd
          simp [stripTicks, tickTag, hc', hd']
    · have hlen3 : (d :: e :: rest).length ≤ n := by
        simp only [List.length_cons] at hX ⊢; omega
      have hlenr : rest.length ≤ n := by
        simp only [List.length_cons] at hX; omega
      cases hcond : (c == bq && d == bq && e == bq) with
      | true =>
        simp only [List.cons_append, stripTicks, hcond, if_true]
        exact ih rest hlenr
      | false =>
        simp only [List.cons_append, List.append_eq, stripTicks, hcond,
          Bool.false_eq_true, if_false]
        have h' := ih (d :: e :: rest) hlen3
        simp only [List.cons_append, List.append_eq] at h'
        rw [h']

theorem stripTicks_append_nl_ticks (X : List Char) :
    stripTicks (X ++ '\n' :: tickTag) = stripTicks X ++ ['\n'] := by
  suffices h : ∀ n (X : List Char), X.length ≤ n →
      stripTicks (X ++ '\n' :: tickTag) = stripTicks X ++ ['\n'] from
    h X.length X le_rfl
  intro n
  induction n with
  | zero =>
    intro X hX
    have hnil : X = [] := List.eq_nil_of_length_eq_zero (Nat.le_zero.mp hX)
    subst hnil; decide
  | succ n ih =>
    intro X hX
    rcases X with _ | ⟨c, _ | ⟨d, _ | ⟨e, rest⟩⟩⟩
    · decide
    · simp +decide [stripTicks, tickTag]
    · simp +decide [stripTicks, tickTag]
    · have hlen3 : (d :: e :: rest).length ≤ n := by
        simp only [List.length_cons] at hX ⊢; omega
      have hlenr : rest.length ≤ n := by
        simp only [List.length_cons] at hX; omega
      cases hcond : (c == bq && d == bq && e == bq) with
      | true =>
        simp only [List.cons_append, stripTicks, hcond, if_true]
        exact ih rest hlenr
      | false =>
        simp only [List.cons_append, List.append_eq, stripTicks, hcond,
          Bool.false_eq_true, if_false]
        have h' := ih (d :: e :: rest) hlen3
        simp only [List.cons_append, List.append_eq] at h'
        rw [h']

/-- Scanning step of the first pass when the six-character window is not
`` ```sql ``: the head character is kept and scanning advances by one. -/
theorem stripFence_cons_of_neg {c d e f g h2 : Char}
    (hcond : (c == bq && d == bq && e == bq && f == 's' && g == 'q' && h2 == 'l') = false)
    (t : List Char) :
    stripFence (c :: d :: e :: f :: g :: h2 :: t) =
      c :: stripFence (d :: e :: f :: g :: h2 :: t) := by
  cases t with
  | nil => simp only [stripFence.eq_7, hcond, Bool.false_eq_true, if_false]
  | cons n t' => simp only [stripFence.eq_8, hcond, Bool.false_eq_true, if_false]

theorem stripFence_fenceOpen (X : List Char) :
    stripFence (bq :: bq :: bq :: 's' :: 'q' :: 'l' :: '\n' :: X) = stripFence X := by
  simp +decide [stripFence.eq_8]

/-- Effect of the first replacement pass on a payload followed by the closing
fence `"\n```"`: the trailing newline is swallowed exactly when the payload
ends in a matched `` ```sql `` (the greedy `\n?`), otherwise the closing
characters pass through untouched. -/
theorem stripFence_append_close (s : List Char) :
    stripFence (s ++ '\n' :: tickTag) = stripFence s ++ tickTag ∨
    stripFence (s ++ '\n' :: tickTag) = stripFence s ++ '\n' :: tickTag := by
  suffices haux : ∀ n (s : List Char), s.length ≤ n →
      (stripFence (s ++ '\n' :: tickTag) = stripFence s ++ tickTag ∨
       stripFence (s ++ '\n' :: tickTag) = stripFence s ++ '\n' :: tickTag) from
    haux s.length s le_rfl
  intro n
  induction n with
  | zero =>
    intro s hs
    have hnil : s = [] := List.eq_nil_of_length_eq_zero (Nat.le_zero.mp hs)
    subst hnil
    exact Or.inr (by decide)
  | succ n ih =>
    intro s hs
    rcases s with _ | ⟨c, _ | ⟨d, _ | ⟨e, _ | ⟨f, _ | ⟨g, _ | ⟨h2, rest⟩⟩⟩⟩⟩⟩
    · exact Or.inr (by decide)
    · exact Or.inr (by simp +decide [stripFence, tickTag])
    · exact Or.inr (by simp +decide [stripFence, tickTag])
    · exact Or.inr (by simp +decide [stripFence, tickTag])
    · exact Or.inr (by simp +decide [stripFence, tickTag])
    · exact Or.inr (by simp +decide [stripFence, tickTag])
    · have hlen5 : (d :: e :: f :: g :: h2 :: rest).length ≤ n := by
        simp only [List.length_cons] at hs ⊢; omega
      cases hcond : (c == bq && d == bq && e == bq && f == 's' && g == 'q' && h2 == 'l') with
      | true =>
        simp only [Bool.and_eq_true, beq_iff_eq] at hcond
        obtain ⟨⟨⟨⟨⟨rfl, rfl⟩, rfl⟩, rfl⟩, rfl⟩, rfl⟩ := hcond
        rcases rest with _ | ⟨m, rest'⟩
        · exact Or.inl (by decide)
        · have hlenm : (m :: rest').length ≤ n := by
            simp only [List.length_cons] at hs ⊢; omega
          have hlenr : rest'.length ≤ n := by
            simp only [List.length_cons] at hs; omega
          by_cases hm : m = '\n'
          · subst hm
            have hred1 : stripFence ((bq :: bq :: bq :: 's' :: 'q' :: 'l' :: '\n' :: rest') ++
                '\n' :: tickTag) = stripFence (rest' ++ '\n' :: tickTag) := by
              simp only [List.cons_append]
              exact stripFence_fenceOpen (rest' ++ '\n' :: tickTag)
            rw [hred1, stripFence_fenceOpen rest']
            exact ih rest' hlenr
          · have hm' : (m == '\n') = false := by simpa using hm
            have hred1 : stripFence ((bq :: bq :: bq :: 's' :: 'q' :: 'l' :: m :: rest') ++
                '\n' :: tickTag) = stripFence ((m :: rest') ++ '\n' :: tickTag) := by
              simp only [List.cons_append]
              simp +decide [stripFence.eq_8, hm']
            have hred2 : stripFence (bq :: bq :: bq :: 's' :: 'q' :: 'l' :: m :: rest') =
                stripFence (m :: rest') := by
              simp +decide [stripFence.eq_8, hm']
            rw [hred1, hred2]
            exact ih (m :: rest') hlenm
      | false =>
        have hstep := stripFence_cons_of_neg hcond
        have h1 := ih (d :: e :: f :: g :: h2 :: rest) hlen5
        simp only [List.cons_append] at h1 ⊢
        rcases h1 with h1 | h1
        · left
          rw [hstep, hstep, h1, List.cons_append]
        · right
          rw [hstep, hstep, h1, List.cons_append]

theorem trimR_append_nl (W : List Char) : trimR (W ++ ['\n']) = trimR W := by
  simp only [trimR, List.reverse_append, List.reverse_cons, List.reverse_nil,
    List.nil_append, List.cons_append]
  rw [List.dropWhile_cons_of_pos (by decide)]

theorem trim_append_nl (Y : List Char) : trim (Y ++ ['\n']) = trim Y := by
  induction Y with
  | nil => decide
  | cons c Y' ih =>
    by_cases hc : isJsSpace c
    · have h1 : trim ((c :: Y') ++ ['\n']) = trim (Y' ++ ['\n']) := by
        simp only [trim, trimL, List.cons_append]
        rw [List.dropWhile_cons_of_pos hc]
      have h2 : trim (c :: Y') = trim Y' := by
        simp only [trim, trimL]
        rw [List.dropWhile_cons_of_pos hc]
      rw [h1, h2, ih]
    · have h1 : trimL ((c :: Y') ++ ['\n']) = (c :: Y') ++ ['\n'] := by
        simp only [trimL, List.cons_append]
        rw [List.dropWhile_cons_of_neg hc]
      have h2 : trimL (c :: Y') = c :: Y' := by
        rw [trimL, List.dropWhile_cons_of_neg hc]
      simp only [trim, h1, h2]
      exact trimR_append_nl (c :: Y')

/-- C3.  Round-trip of fence stripping: for every payload `s`, `cleanQuery`
of `` "```sql\n" ++ s ++ "\n```" `` equals `cleanQuery` of `s` itself; and
`generateSQLQuery` returns `"SELECT 1"` when the model reply is
`` "```sql\nSELECT 1\n```" ``. -/
theorem cleanQuery_fence_roundtrip :
    (∀ s : List Char,
      cleanQuery ("```sql\n".data ++ s ++ "\n```".data) = cleanQuery s) ∧
    generateSQLQueryFn (some "```sql\nSELECT 1\n```") = "SELECT 1" := by
  constructor
  · intro s
    have hopen : "```sql\n".data = [bq, bq, bq, 's', 'q', 'l', '\n'] := by decide
    have hclose : "\n```".data = '\n' :: tickTag := by decide
    rw [hopen, hclose]
    have hassoc : ([bq, bq, bq, 's', 'q', 'l', '\n'] ++ s) ++ '\n' :: tickTag =
        bq :: bq :: bq :: 's' :: 'q' :: 'l' :: '\n' :: (s ++ '\n' :: tickTag) := by
      simp
    rw [hassoc]
    show trim (stripTicks (stripFence
      (bq :: bq :: bq :: 's' :: 'q' :: 'l' :: '\n' :: (s ++ '\n' :: tickTag)))) = cleanQuery s
    rw [stripFence_fenceOpen (s ++ '\n' :: tickTag)]
    rcases stripFence_append_close s with h | h
    · rw [h, stripTicks_append_ticks]
      rfl
    · rw [h, stripTicks_append_nl_ticks, trim_append_nl]
      rfl
  · decide

theorem leadTicks_cons (c : Char) (l : List Char) :
    leadTicks (c :: l) = if c == bq then leadTicks l + 1 else 0 := by
  simp only [leadTicks, List.takeWhile_cons]
  by_cases hc : (c == bq) = true
  · rw [if_pos hc, if_pos hc, List.length_cons]
  · rw [if_neg hc, if_neg hc, List.length_nil]

theorem hasTriple_tail {c : Char} {T : List Char} (h : hasTriple (c :: T) = false) :
    hasTriple T = false := by
  rcases T with _ | ⟨d, _ | ⟨e, r⟩⟩
  · rfl
  · rfl
  · rw [hasTriple.eq_1] at h
    cases hw : hasTriple (d :: e :: r) with
    | false => rfl
    | true => rw [hw, Bool.or_true] at h; exact absurd h (by decide)

theorem hasTriple_head {c d e : Char} {r : List Char}
    (h : hasTriple (c :: d :: e :: r) = false) :
    (c == bq && d == bq && e == bq) = false := by
  rw [hasTriple.eq_1] at h
  cases hw : (c == bq && d == bq && e == bq) with
  | false => rfl
  | true => rw [hw, Bool.true_or] at h; exact absurd h (by decide)

theorem hasTriple_cons_of {c : Char} {X : List Char} (h : hasTriple X = true) :
    hasTriple (c :: X) = true := by
  rcases X with _ | ⟨d, _ | ⟨e, r⟩⟩
  · have hf : hasTriple ([] : List Char) = false := rfl
    rw [hf] at h; exact absurd h (by decide)
  · have hf : hasTriple [d] = false := rfl
    rw [hf] at h; exact absurd h (by decide)
  · rw [hasTriple.eq_1, h, Bool.or_true]

theorem hasTriple_append_right {b : List Char} (a : List Char)
    (h : hasTriple b = true) : hasTriple (a ++ b) = true := by
  induction a with
  | nil => simpa using h
  | cons c a' ih => exact List.cons_append c a' b ▸ hasTriple_cons_of ih

theorem hasTriple_append_left {a : List Char} (b : List Char)
    (h : hasTriple a = true) : hasTriple (a ++ b) = true := by
  induction a with
  | nil => exact absurd h (by decide)
  | cons c a' ih =>
    rcases a' with _ | ⟨d, _ | ⟨e, r⟩⟩
    · have hf : hasTriple [c] = false := rfl
      rw [hf] at h; exact absurd h (by decide)
    · have hf : hasTriple [c, d] = false := rfl
      rw [hf] at h; exact absurd h (by decide)
    · simp only [List.cons_append]
      rw [hasTriple.eq_1]
      cases hw : (c == bq && d == bq && e == bq) with
      | true => rw [Bool.true_or]
      | false =>
        rw [Bool.false_or]
        rw [hasTriple.eq_1, hw, Bool.false_or] at h
        have h2 := ih h
        simpa only [List.cons_append] using h2

theorem hasTriple_infix_false {a b : List Char} (hsub : a <:+: b)
    (h : hasTriple b = false) : hasTriple a = false := by
  obtain ⟨s, t, rfl⟩ := hsub
  cases ha : hasTriple a with
  | false => rfl
  | true =>
    have h1 : hasTriple (a ++ t) = true := hasTriple_append_left t ha
    have h2 : hasTriple (s ++ (a ++ t)) = true := hasTriple_append_right s h1
    rw [List.append_assoc] at h
    rw [h2] at h
    exact absurd h (by decide)

/-- Bound on the leading backtick run of the second pass's output. -/
theorem leadTicks_stripTicks_le : ∀ l : List Char, leadTicks (stripTicks l) ≤ leadTicks l := by
  suffices haux : ∀ n (l : List Char), l.length ≤ n →
      leadTicks (stripTicks l) ≤ leadTicks l from fun l => haux l.length l le_rfl
  intro n
  induction n with
  | zero =>
    intro l hl
    have hnil : l = [] := List.eq_nil_of_length_eq_zero (Nat.le_zero.mp hl)
    subst hnil; exact le_rfl
  | succ n ih =>
    intro l hl
    rcases l with _ | ⟨c, _ | ⟨d, _ | ⟨e, r⟩⟩⟩
    · exact le_rfl
    · simp [stripTicks]
    · simp [stripTicks]
    · have hlen3 : (d :: e :: r).length ≤ n := by
        simp only [List.length_cons] at hl ⊢; omega
      have hlenr : r.length ≤ n := by
        simp only [List.length_cons] at hl; omega
      cases hcond : (c == bq && d == bq && e == bq) with
      | true =>
        have hred : stripTicks (c :: d :: e :: r) = stripTicks r := by
          simp only [stripTicks, hcond, if_true]
        rw [hred]
        simp only [Bool.and_eq_true, beq_iff_eq] at hcond
        obtain ⟨⟨rfl, rfl⟩, rfl⟩ := hcond
        have h1 := ih r hlenr
        rw [leadTicks_cons, if_pos (by decide), leadTicks_cons, if_pos (by decide),
          leadTicks_cons, if_pos (by decide)]
        omega
      | false =>
        have hred : stripTicks (c :: d :: e :: r) = c :: stripTicks (d :: e :: r) := by
          simp only [stripTicks, hcond, Bool.false_eq_true, if_false]
        rw [hred]
        have h1 := ih (d :: e :: r) hlen3
        by_cases hc : (c == bq) = true
        · rw [leadTicks_cons, leadTicks_cons, if_pos hc, if_pos hc]
          omega
        · rw [leadTicks_cons, if_neg hc]
          omega

/-- The second pass's output never contains three consecutive backticks. -/
theorem hasTriple_stripTicks : ∀ l : List Char, hasTriple (stripTicks l) = false := by
  suffices haux : ∀ n (l : List Char), l.length ≤ n →
      hasTriple (stripTicks l) = false from fun l => haux l.length l le_rfl
  intro n
  induction n with
  | zero =>
    intro l hl
    have hnil : l = [] := List.eq_nil_of_length_eq_zero (Nat.le_zero.mp hl)
    subst hnil; rfl
  | succ n ih =>
    intro l hl
    rcases l with _ | ⟨c, _ | ⟨d, _ | ⟨e, r⟩⟩⟩
    · rfl
    · simp [stripTicks, hasTriple]
    · simp [stripTicks, hasTriple]
    · have hlen3 : (d :: e :: r).length ≤ n := by
        simp only [List.length_cons] at hl ⊢; omega
      have hlenr : r.length ≤ n := by
        simp only [List.length_cons] at hl; omega
      cases hcond : (c == bq && d == bq && e == bq) with
      | true =>
        have hred : stripTicks (c :: d :: e :: r) = stripTicks r := by
          simp only [stripTicks, hcond, if_true]
        rw [hred]
        exact ih r hlenr
      | false =>
        have hred : stripTicks (c :: d :: e :: r) = c :: stripTicks (d :: e :: r) := by
          simp only [stripTicks, hcond, Bool.false_eq_true, if_false]
        rw [hred]
        have hS := ih (d :: e :: r) hlen3
        rcases hshape : stripTicks (d :: e :: r) with _ | ⟨x, _ | ⟨y, s'⟩⟩
        · rfl
        · rfl
        · rw [hshape] at hS
          rw [hasTriple.eq_1]
          cases hw : (c == bq && x == bq && y == bq) with
          | false => rw [Bool.false_or]; exact hS
          | true =>
            exfalso
            simp only [Bool.and_eq_true, beq_iff_eq] at hw
            obtain ⟨⟨rfl, rfl⟩, rfl⟩ := hw
            have h2 : 2 ≤ leadTicks (stripTicks (d :: e :: r)) := by
              rw [hshape, leadTicks_cons, if_pos (by decide), leadTicks_cons,
                if_pos (by decide)]
              omega
            have h3 : leadTicks (d :: e :: r) ≤ 1 := by
              by_cases hd : (d == bq) = true
              · have he : (e == bq) = false := by
                  cases he' : (e == bq) with
                  | false => rfl
                  | true =>
                    rw [hd, he'] at hcond
                    exact absurd hcond (by decide)
                rw [leadTicks_cons, if_pos hd, leadTicks_cons, if_neg (by simp [he])]
              · rw [leadTicks_cons, if_neg hd]
                omega
            have h4 := leadTicks_stripTicks_le (d :: e :: r)
            omega

/-- On triple-free input the `/```/` pass keeps every character. -/
theorem stripTicks_eq_self : ∀ {X : List Char}, hasTriple X = false → stripTicks X = X := by
  suffices haux : ∀ n (X : List Char), X.length ≤ n → hasTriple X = false →
      stripTicks X = X from fun {X} => haux X.length X le_rfl
  intro n
  induction n with
  | zero =>
    intro X hX _
    have hnil : X = [] := List.eq_nil_of_length_eq_zero (Nat.le_zero.mp hX)
    subst hnil; rfl
  | succ n ih =>
    intro X hX h
    rcases X with _ | ⟨c, _ | ⟨d, _ | ⟨e, r⟩⟩⟩
    · rfl
    · rfl
    · rfl
    · have hlen3 : (d :: e :: r).length ≤ n := by
        simp only [List.length_cons] at hX ⊢; omega
      have hw := hasTriple_head h
      have htail := hasTriple_tail h
      simp only [stripTicks, hw, Bool.false_eq_true, if_false]
      rw [ih (d :: e :: r) hlen3 htail]

/-- On triple-free input the `` /```sql\n?/ `` pass keeps every character
(a fence match would need three consecutive backticks). -/
theorem stripFence_eq_self : ∀ {X : List Char}, hasTriple X = false → stripFence X = X := by
  suffices haux : ∀ n (X : List Char), X.length ≤ n → hasTriple X = false →
      stripFence X = X from fun {X} => haux X.length X le_rfl
  intro n
  induction n with
  | zero =>
    intro X hX _
    have hnil : X = [] := List.eq_nil_of_length_eq_zero (Nat.le_zero.mp hX)
    subst hnil; rfl
  | succ n ih =>
    intro X hX h
    rcases X with _ | ⟨c, _ | ⟨d, _ | ⟨e, _ | ⟨f, _ | ⟨g, _ | ⟨h2, rest⟩⟩⟩⟩⟩⟩
    · rfl
    · rw [stripFence.eq_2]
    · rw [stripFence.eq_3]
    · rw [stripFence.eq_4]
    · rw [stripFence.eq_5]
    · rw [stripFence.eq_6]
    · have hlen5 : (d :: e :: f :: g :: h2 :: rest).length ≤ n := by
        simp only [List.length_cons] at hX ⊢; omega
      have hw3 := hasTriple_head h
      have hw6 : (c == bq && d == bq && e == bq && f == 's' && g == 'q' && h2 == 'l') = false := by
        cases hc : (c == bq) <;> cases hd : (d == bq) <;> cases he : (e == bq) <;>
          rw [hc, hd, he] at hw3 <;> simp_all
      rw [stripFence_cons_of_neg hw6]
      rw [ih (d :: e :: f :: g :: h2 :: rest) hlen5 (hasTriple_tail h)]

/-- `dropWhile` leaves either nothing or a list whose head fails the
predicate. -/
theorem dropWhile_head_not (p : Char → Bool) (l : List Char) :
    l.dropWhile p = [] ∨ ∃ c t, l.dropWhile p = c :: t ∧ p c = false := by
  induction l with
  | nil => exact Or.inl rfl
  | cons c l' ih =>
    by_cases hc : p c
    · rw [List.dropWhile_cons_of_pos hc]; exact ih
    · exact Or.inr ⟨c, l', by rw [List.dropWhile_cons_of_neg hc], by simpa using hc⟩

theorem dropWhile_idem (p : Char → Bool) (X : List Char) :
    (X.dropWhile p).dropWhile p = X.dropWhile p := by
  rcases dropWhile_head_not p X with h | ⟨c, t, h, hc⟩
  · rw [h]; rfl
  · rw [h, List.dropWhile_cons_of_neg (by simp [hc])]

theorem trimR_leading (Z : List Char) : trimR Z <+: Z := by
  refine ⟨(Z.reverse.takeWhile isJsSpace).reverse, ?_⟩
  rw [trimR, ← List.reverse_append, List.takeWhile_append_dropWhile, List.reverse_reverse]

theorem trimL_suffix (Z : List Char) : trimL Z <:+ Z :=
  ⟨Z.takeWhile isJsSpace, by rw [trimL, List.takeWhile_append_dropWhile]⟩

theorem trim_within (l : List Char) : trim l <:+: l := by
  have h1 : trim l <:+: trimL l := (trimR_leading (trimL l)).isInfix
  have h2 : trimL l <:+: l := (trimL_suffix l).isInfix
  exact h1.trans h2

theorem trimR_trimR (Z : List Char) : trimR (trimR Z) = trimR Z := by
  simp only [trimR, List.reverse_reverse]
  rw [dropWhile_idem]

theorem trim_trim (l : List Char) : trim (trim l) = trim l := by
  rcases dropWhile_head_not isJsSpace l with h | ⟨c, t, h, hc⟩
  · have htl : trim l = [] := by
      rw [trim, show trimL l = [] from h]
      rfl
    rw [htl]
    rfl
  · have hA : trimL l = c :: t := h
    have hpre := trimR_leading (c :: t)
    rcases hshape : trimR (c :: t) with _ | ⟨c', w⟩
    · have htl : trim l = [] := by rw [trim, hA, hshape]
      rw [htl]
      rfl
    · rw [hshape] at hpre
      have hc2 : c' = c := by
        obtain ⟨u, hu⟩ := hpre
        rw [List.cons_append] at hu
        exact (List.cons.injEq _ _ _ _ ▸ hu).1
      have htl : trim l = c' :: w := by rw [trim, hA, hshape]
      rw [htl]
      show trimR (trimL (c' :: w)) = c' :: w
      rw [trimL, List.dropWhile_cons_of_neg (by simp [hc2, hc])]
      rw [← hshape, trimR_trimR, hshape]

/-- C9.  `cleanQuery` is idempotent: one pass removes every fence marker and
trims, so a second pass changes nothing.  Stated on `String` (via
`cleanQueryS`) and on character lists. -/
theorem cleanQuery_idempotent :
    (∀ s : String, cleanQueryS (cleanQueryS s) = cleanQueryS s) ∧
    (∀ l : List Char, cleanQuery (cleanQuery l) = cleanQuery l) := by
  have hlist : ∀ l : List Char, cleanQuery (cleanQuery l) = cleanQuery l := by
    intro l
    have hZ : hasTriple (stripTicks (stripFence l)) = false := hasTriple_stripTicks _
    have hY : hasTriple (cleanQuery l) = false := by
      have hinf : cleanQuery l <:+: stripTicks (stripFence l) :=
        trim_within (stripTicks (stripFence l))
      exact hasTriple_infix_false hinf hZ
    have h1 : cleanQuery (cleanQuery l) = trim (stripTicks (stripFence (cleanQuery l))) := rfl
    rw [h1, stripFence_eq_self hY, stripTicks_eq_self hY]
    show trim (trim (stripTicks (stripFence l))) = cleanQuery l
    rw [trim_trim]
    rfl
  refine ⟨?_, hlist⟩
  intro s
  show String.mk (cleanQuery (String.mk (cleanQuery s.data)).data) = cleanQueryS s
  rw [show (String.mk (cleanQuery s.data)).data = cleanQuery s.data from rfl]
  rw [hlist s.data]
  rfl

/-! ## Pipeline and rendering claims -/

/-- C6.  `formatResponse` returns the empty string when the model returns no
content (`null`, modelled by `none`, or empty text) and never fails (it is a
total function of the content); with content present it returns the text
verbatim. -/
theorem formatResponse_content :
    formatResponseFn none = "" ∧ formatResponseFn (some "") = "" ∧
    ∀ s : String, formatResponseFn (some s) = s :=
  ⟨rfl, rfl, fun _ => rfl⟩

/-- C7.  `connect` is idempotent: on a state that already holds a live pool
it succeeds, leaves the pool unchanged, and makes no driver connect call
(third component `false`), whatever the driver would have answered — so an
inspector never holds more than the one `Option Pool` handle. -/
theorem connect_idempotent :
    ∀ (p : Pool) (openR : Except String Pool),
      connectFn (some p) openR = (Except.ok (), some p, false) :=
  fun _ _ => rfl

/-- C5.  With zero base tables the document is exactly the leading title and
nothing else, both for the pure builder and for `inspectSchema` run on a
connected inspector. -/
theorem inspectSchema_no_tables :
    buildDocument [] = "Database Schema:\n=================\n\n" ∧
    ∀ (p : Pool) (openR : Except String Pool),
      inspectSchemaFn (some p) openR (Except.ok []) =
        (Except.ok "Database Schema:\n=================\n\n", some p) :=
  ⟨rfl, fun _ _ => rfl⟩

/-- C10.  `executeQuery` never dereferences an absent pool: the crash marker
(`none`) is unreachable for every entry state, because a missing pool is
re-connected first and a successful `connect` always leaves a pool; directly
after `disconnect` it either runs the query on the freshly opened pool or
fails with the connection's own (wrapped) error. -/
theorem executeQuery_no_null_deref :
    (∀ (st : Option Pool) (openR : Except String Pool) (qres : Except String Rows),
      (executeQueryFn st openR qres).isSome = true) ∧
    (∀ (p : Pool) (qres : Except String Rows),
      executeQueryFn (disconnectFn (some p)) (Except.ok p) qres = some (qres, some p)) ∧
    (∀ (e : String) (st : Option Pool) (qres : Except String Rows),
      executeQueryFn (disconnectFn st) (Except.error e) qres =
        some (Except.error ("Failed to connect to database: " ++ e), none)) := by
  refine ⟨?_, ?_, ?_⟩
  · intro st openR qres
    cases st with
    | some p => rfl
    | none => cases openR with
      | ok p => rfl
      | error e => rfl
  · intro p qres
    rfl
  · intro e st qres
    cases st <;> rfl

/-- C8.  `analyzeAndQuery` never releases the pool: when a pool is live at
entry it is still the same live pool on every exit path, and when the run
starts disconnected the pool opened by INTROSPECT stays open on every exit
path; only the explicit `disconnect` produces the empty pool state. -/
theorem analyzeAndQuery_preserves_pool :
    (∀ (p : Pool) (openR : Except String Pool) (cat : Except String (List TableData))
        (gen : Except String (Option String)) (exec : Except String Rows)
        (fmt : Except String (Option String)),
      ∃ r b, analyzeAndQueryFn (some p) openR cat gen exec fmt = some (r, some p, b)) ∧
    (∀ (p : Pool) (cat : Except String (List TableData))
        (gen : Except String (Option String)) (exec : Except String Rows)
        (fmt : Except String (Option String)),
      ∃ r b, analyzeAndQueryFn none (Except.ok p) cat gen exec fmt = some (r, some p, b)) ∧
    (∀ st : Option Pool, disconnectFn st = none) := by
  refine ⟨?_, ?_, ?_⟩
  · intro p openR cat gen exec fmt
    cases cat with
    | error e => exact ⟨_, _, rfl⟩
    | ok tds =>
      cases gen with
      | error e => exact ⟨_, _, rfl⟩
      | ok content =>
        cases exec with
        | error e => exact ⟨_, _, rfl⟩
        | ok rows =>
          cases fmt with
          | error e => exact ⟨_, _, rfl⟩
          | ok c2 => exact ⟨_, _, rfl⟩
  · intro p cat gen exec fmt
    cases cat with
    | error e => exact ⟨_, _, rfl⟩
    | ok tds =>
      cases gen with
      | error e => exact ⟨_, _, rfl⟩
      | ok content =>
        cases exec with
        | error e => exact ⟨_, _, rfl⟩
        | ok rows =>
          cases fmt with
          | error e => exact ⟨_, _, rfl⟩
          | ok c2 => exact ⟨_, _, rfl⟩
  · intro st
    cases st <;> rfl

/-- C1.  When INTROSPECT and GENERATE succeed and the EXECUTE stage's
database call fails with message `m`, `analyzeAndQuery` rejects with the
single wrapped error `Failed to analyze and query: m` — whose text contains
`m` — and the FORMAT stage (`formatResponse`) is never invoked (flag
`false`).  Stated for a run entered with a live pool and for a run that
connects during INTROSPECT. -/
theorem analyzeAndQuery_execute_failure :
    (∀ (p : Pool) (openR : Except String Pool) (tds : List TableData)
        (content : Option String) (m : String) (fmt : Except String (Option String)),
      analyzeAndQueryFn (some p) openR (Except.ok tds) (Except.ok content)
          (Except.error m) fmt =
        some (Except.error ("Failed to analyze and query: " ++ m), some p, false)) ∧
    (∀ (p : Pool) (tds : List TableData) (content : Option String) (m : String)
        (fmt : Except String (Option String)),
      analyzeAndQueryFn none (Except.ok p) (Except.ok tds) (Except.ok content)
          (Except.error m) fmt =
        some (Except.error ("Failed to analyze and query: " ++ m), some p, false)) ∧
    (∀ m : String, m.data <:+ ("Failed to analyze and query: " ++ m).data) := by
  refine ⟨fun _ _ _ _ _ _ => rfl, fun _ _ _ _ _ => rfl, ?_⟩
  intro m
  refine ⟨"Failed to analyze and query: ".data, ?_⟩
  cases m with
  | mk l => rfl

/-- C4.  Every table section always emits the `Table:` header and the
`Columns:` block (also with zero columns), while the description line and
the primary-key, foreign-key and index blocks are emitted exactly when the
corresponding catalog data is present/non-empty, and an absent optional part
contributes the empty string — never an empty block. -/
theorem renderTable_blocks (td : TableData) :
    renderTable td =
      "Table: " ++ td.table.TABLE_NAME ++ "\n" ++ descPart td.table ++
      "----------------------------------------\n" ++ columnsPart td.columns ++
      pkPart td.primaryKeys ++ fkPart td.foreignKeys ++ ixPart td.indexes ++ "\n\n" ∧
    columnsPart td.columns = "Columns:\n" ++ String.join (td.columns.map renderColumn) ∧
    columnsPart [] = "Columns:\n" ∧
    (jsTruthy td.table.TABLE_DESCRIPTION = false → descPart td.table = "") ∧
    (jsTruthy td.table.TABLE_DESCRIPTION = true →
      descPart td.table =
        "Description: " ++ td.table.TABLE_DESCRIPTION.getD "" ++ "\n") ∧
    (td.primaryKeys = [] → pkPart td.primaryKeys = "") ∧
    (td.primaryKeys ≠ [] → pkPart td.primaryKeys =
      "\nPrimary Keys:\n" ++ String.join (td.primaryKeys.map (fun k => "- " ++ k ++ "\n"))) ∧
    (td.foreignKeys = [] → fkPart td.foreignKeys = "") ∧
    (td.foreignKeys ≠ [] → fkPart td.foreignKeys =
      "\nForeign Keys:\n" ++ String.join (td.foreignKeys.map renderFK)) ∧
    (td.indexes = [] → ixPart td.indexes = "") ∧
    (td.indexes ≠ [] → ixPart td.indexes =
      "\nIndexes:\n" ++ String.join ((groupIndexes td.indexes).map renderIndexLine)) := by
  refine ⟨rfl, rfl, rfl, ?_, ?_, ?_, ?_, ?_, ?_, ?_, ?_⟩
  · intro h
    rw [descPart, if_neg (by simp [h])]
  · intro h
    rw [descPart, if_pos h]
  · intro h
    rw [pkPart, if_neg (by simp [h])]
  · intro h
    rw [pkPart, if_pos (by simpa [List.length_pos] using h)]
  · intro h
    rw [fkPart, if_neg (by simp [h])]
  · intro h
    rw [fkPart, if_pos (by simpa [List.length_pos] using h)]
  · intro h
    rw [ixPart, if_neg (by simp [h])]
  · intro h
    rw [ixPart, if_pos (by simpa [List.length_pos] using h)]

/-- Witness for C4 at a concrete zero-column, all-optional-absent table. -/
theorem renderTable_blocks_witness :
    descPart (TableMeta.mk "Users" none) = "" ∧
    pkPart [] = "" ∧ fkPart [] = "" ∧ ixPart [] = "" ∧
    columnsPart [] = "Columns:\n" := by
  obtain ⟨-, -, h3, h4, -, h6, -, h8, -, h10, -⟩ :=
    renderTable_blocks (TableData.mk (TableMeta.mk "Users" none) [] [] [] [])
  exact ⟨h4 rfl, h6 rfl, h8 rfl, h10 rfl, h3⟩

/-! ### Grouping of index rows (claim C2)

`groupIndexes` is the JavaScript `Map`-based `forEach` loop.  The key fact is
a recursion equation: the first row opens the first group, which collects the
columns of all equal-named rows in order, and the remaining rows form the
remaining groups. -/

theorem any_key_update (m : List (String × List String × Bool)) (nm col x : String) :
    ((m.map (fun e =>
        if e.1 == nm then (e.1, e.2.1 ++ [col], e.2.2) else e)).any
      (fun e => e.1 == x)) = m.any (fun e => e.1 == x) := by
  induction m with
  | nil => rfl
  | cons e m' ih =>
    simp only [List.map_cons, List.any_cons, ih]
    by_cases he : (e.1 == nm) = true
    · rw [if_pos he]
    · rw [if_neg he]

theorem map_update_id (m : List (String × List String × Bool)) (nm col : String)
    (h : m.any (fun e => e.1 == nm) = false) :
    m.map (fun e => if e.1 == nm then (e.1, e.2.1 ++ [col], e.2.2) else e) = m := by
  induction m with
  | nil => rfl
  | cons e m' ih =>
    rw [List.any_cons, Bool.or_eq_false_iff] at h
    rw [List.map_cons, if_neg (by simp [h.1]), ih h.2]

/-- Running the `forEach` loop from a state whose first map entry has a key
absent from the rest: that entry collects exactly the equal-named rows'
columns in order, and the rest of the fold never touches it. -/
theorem foldl_addIndexRow_cons_key (rows : List IndexRow) :
    ∀ (g : String × List String × Bool) (acc : List (String × List String × Bool)),
      acc.any (fun e => e.1 == g.1) = false →
      List.foldl addIndexRow (g :: acc) rows =
        (g.1,
          g.2.1 ++ (rows.filter (fun x => x.INDEX_NAME == g.1)).map
            (fun x => x.COLUMN_NAME),
          g.2.2) ::
          List.foldl addIndexRow acc (rows.filter (fun x => !(x.INDEX_NAME == g.1))) := by
  induction rows with
  | nil =>
    intro g acc h
    simp
  | cons x rows ih =>
    intro g acc h
    rw [List.foldl_cons]
    by_cases hx : (x.INDEX_NAME == g.1) = true
    · have hxe : x.INDEX_NAME = g.1 := by simpa using hx
      have hg1 : (g.1 == x.INDEX_NAME) = true := by simp [hxe]
      have hacc : acc.any (fun e => e.1 == x.INDEX_NAME) = false := by
        rw [hxe]; exact h
      have hstep : addIndexRow (g :: acc) x =
          (g.1, g.2.1 ++ [x.COLUMN_NAME], g.2.2) :: acc := by
        rw [addIndexRow, if_pos (by simp [List.any_cons, hg1]), List.map_cons,
          if_pos hg1, map_update_id acc _ _ hacc]
      rw [hstep, ih (g.1, g.2.1 ++ [x.COLUMN_NAME], g.2.2) acc h]
      simp [List.filter_cons, hx, List.append_assoc]
    · have hxf : (x.INDEX_NAME == g.1) = false := by
        cases hb : (x.INDEX_NAME == g.1) with
        | false => rfl
        | true => exact absurd hb hx
      have hg1 : (g.1 == x.INDEX_NAME) = false := by
        have hne : ¬ x.INDEX_NAME = g.1 := by simpa using hxf
        cases hb : (g.1 == x.INDEX_NAME) with
        | false => rfl
        | true =>
          have hb2 : g.1 = x.INDEX_NAME := by simpa using hb
          exact absurd hb2.symm hne
      by_cases hacc : acc.any (fun e => e.1 == x.INDEX_NAME) = true
      · have hstep : addIndexRow (g :: acc) x = g :: addIndexRow acc x := by
          rw [addIndexRow, addIndexRow, if_pos (by simp [List.any_cons, hg1, hacc]),
            if_pos hacc, List.map_cons, if_neg (by simp [hg1])]
        rw [hstep]
        have hkey : (addIndexRow acc x).any (fun e => e.1 == g.1) = false := by
          rw [addIndexRow, if_pos hacc, any_key_update]
          exact h
        rw [ih g (addIndexRow acc x) hkey]
        simp [List.filter_cons, hxf]
      · have haccf : acc.any (fun e => e.1 == x.INDEX_NAME) = false := by
          cases hb : acc.any (fun e => e.1 == x.INDEX_NAME) with
          | false => rfl
          | true => exact absurd hb hacc
        have hstep : addIndexRow (g :: acc) x =
            g :: (acc ++ [(x.INDEX_NAME, [x.COLUMN_NAME], x.is_unique)]) := by
          rw [addIndexRow, if_neg (by simp [List.any_cons, hg1, haccf]), List.cons_append]
        rw [hstep]
        have hkey : (acc ++ [(x.INDEX_NAME, [x.COLUMN_NAME], x.is_unique)]).any
            (fun e => e.1 == g.1) = false := by
          simp [List.any_append, h, hxf]
        rw [ih g (acc ++ [(x.INDEX_NAME, [x.COLUMN_NAME], x.is_unique)]) hkey]
        have hstep2 : addIndexRow acc x =
            acc ++ [(x.INDEX_NAME, [x.COLUMN_NAME], x.is_unique)] := by
          rw [addIndexRow, if_neg (by simp [haccf])]
        simp [List.filter_cons, hxf, hstep2]

/-- Recursion equation for the `Map` grouping. -/
theorem groupIndexes_cons (r : IndexRow) (rows : List IndexRow) :
    groupIndexes (r :: rows) =
      (r.INDEX_NAME,
        r.COLUMN_NAME :: (rows.filter (fun x => x.INDEX_NAME == r.INDEX_NAME)).map
          (fun x => x.COLUMN_NAME),
        r.is_unique) ::
      groupIndexes (rows.filter (fun x => !(x.INDEX_NAME == r.INDEX_NAME))) := by
  show List.foldl addIndexRow (addIndexRow [] r) rows = _
  have h0 : addIndexRow [] r = [(r.INDEX_NAME, [r.COLUMN_NAME], r.is_unique)] := by
    rw [addIndexRow, if_neg (by simp)]
    rfl
  rw [h0,
    foldl_addIndexRow_cons_key rows (r.INDEX_NAME, [r.COLUMN_NAME], r.is_unique) [] rfl]
  rfl

/-- Every group key is the index name of some contributing row. -/
theorem groupIndexes_key_mem : ∀ (rows : List IndexRow) g, g ∈ groupIndexes rows →
    ∃ x ∈ rows, x.INDEX_NAME = g.1 := by
  suffices haux : ∀ n (rows : List IndexRow), rows.length ≤ n → ∀ g ∈ groupIndexes rows,
      ∃ x ∈ rows, x.INDEX_NAME = g.1 from fun rows => haux rows.length rows le_rfl
  intro n
  induction n with
  | zero =>
    intro rows hl g hg
    have hnil : rows = [] := List.eq_nil_of_length_eq_zero (Nat.le_zero.mp hl)
    subst hnil
    exact absurd hg (by simp [groupIndexes])
  | succ n ih =>
    intro rows hl g hg
    rcases rows with _ | ⟨r, rest⟩
    · exact absurd hg (by simp [groupIndexes])
    · rw [groupIndexes_cons] at hg
      rcases List.mem_cons.mp hg with hg | hg
      · exact ⟨r, List.mem_cons_self r rest, by rw [hg]⟩
      · have hlen : (rest.filter (fun x => !(x.INDEX_NAME == r.INDEX_NAME))).length ≤ n := by
          have := List.length_filter_le (fun x => !(x.INDEX_NAME == r.INDEX_NAME)) rest
          simp only [List.length_cons] at hl
          omega
        obtain ⟨x, hxmem, hxname⟩ := ih _ hlen g hg
        exact ⟨x, List.mem_cons_of_mem r (List.mem_of_mem_filter hxmem), hxname⟩

/-- The group keys are the distinct index names in first-seen order. -/
theorem groupIndexes_names : ∀ rows : List IndexRow,
    (groupIndexes rows).map (fun g => g.1) = firstSeenNames rows := by
  suffices haux : ∀ n (rows : List IndexRow), rows.length ≤ n →
      (groupIndexes rows).map (fun g => g.1) = firstSeenNames rows from
    fun rows => haux rows.length rows le_rfl
  intro n
  induction n with
  | zero =>
    intro rows hl
    have hnil : rows = [] := List.eq_nil_of_length_eq_zero (Nat.le_zero.mp hl)
    subst hnil
    simp [groupIndexes, firstSeenNames]
  | succ n ih =>
    intro rows hl
    rcases rows with _ | ⟨r, rest⟩
    · simp [groupIndexes, firstSeenNames]
    · have hlen : (rest.filter (fun x => !(x.INDEX_NAME == r.INDEX_NAME))).length ≤ n := by
        have := List.length_filter_le (fun x => !(x.INDEX_NAME == r.INDEX_NAME)) rest
        simp only [List.length_cons] at hl
        omega
      rw [groupIndexes_cons, List.map_cons, ih _ hlen, firstSeenNames]

/-- Column order and uniqueness flag of every group, assuming the catalog
invariant that all rows of one index name carry the same flag (`is_unique`
comes from `sys.indexes`, one row per index). -/
theorem groupIndexes_groups : ∀ (rows : List IndexRow),
    (∀ r1 ∈ rows, ∀ r2 ∈ rows, r1.INDEX_NAME = r2.INDEX_NAME →
      r1.is_unique = r2.is_unique) →
    ∀ g ∈ groupIndexes rows,
      g.2.1 = (rows.filter (fun x => x.INDEX_NAME == g.1)).map (fun x => x.COLUMN_NAME) ∧
      (g.2.2 = true ↔ ∀ x ∈ rows, x.INDEX_NAME = g.1 → x.is_unique = true) := by
  suffices haux : ∀ n (rows : List IndexRow), rows.length ≤ n →
      (∀ r1 ∈ rows, ∀ r2 ∈ rows, r1.INDEX_NAME = r2.INDEX_NAME →
        r1.is_unique = r2.is_unique) →
      ∀ g ∈ groupIndexes rows,
        g.2.1 = (rows.filter (fun x => x.INDEX_NAME == g.1)).map (fun x => x.COLUMN_NAME) ∧
        (g.2.2 = true ↔ ∀ x ∈ rows, x.INDEX_NAME = g.1 → x.is_unique = true) from
    fun rows => haux rows.length rows le_rfl
  intro n
  induction n with
  | zero =>
    intro rows hl _ g hg
    have hnil : rows = [] := List.eq_nil_of_length_eq_zero (Nat.le_zero.mp hl)
    subst hnil
    exact absurd hg (by simp [groupIndexes])
  | succ n ih =>
    intro rows hl h g hg
    rcases rows with _ | ⟨r, rest⟩
    · exact absurd hg (by simp [groupIndexes])
    · have hlen : (rest.filter (fun x => !(x.INDEX_NAME == r.INDEX_NAME))).length ≤ n := by
        have := List.length_filter_le (fun x => !(x.INDEX_NAME == r.INDEX_NAME)) rest
        simp only [List.length_cons] at hl
        omega
      rw [groupIndexes_cons] at hg
      rcases List.mem_cons.mp hg with hg | hg
      · subst hg
        constructor
        · show r.COLUMN_NAME :: _ = _
          rw [List.filter_cons_of_pos (by simp), List.map_cons]
        · show r.is_unique = true ↔ _
          constructor
          · intro hu x hx hname
            have hxeq := h x hx r (List.mem_cons_self r rest) (by simpa using hname)
            rw [hxeq, hu]
          · intro hall
            exact hall r (List.mem_cons_self r rest) rfl
      · have hrestr : ∀ r1 ∈ rest.filter (fun x => !(x.INDEX_NAME == r.INDEX_NAME)),
            ∀ r2 ∈ rest.filter (fun x => !(x.INDEX_NAME == r.INDEX_NAME)),
            r1.INDEX_NAME = r2.INDEX_NAME → r1.is_unique = r2.is_unique := by
          intro r1 h1 r2 h2 hname
          exact h r1 (List.mem_cons_of_mem r (List.mem_of_mem_filter h1))
            r2 (List.mem_cons_of_mem r (List.mem_of_mem_filter h2)) hname
        obtain ⟨hcols, hflag⟩ := ih _ hlen hrestr g hg
        obtain ⟨y, hymem, hyname⟩ := groupIndexes_key_mem _ g hg
        have hyfilt := List.of_mem_filter hymem
        have hkey : ¬ g.1 = r.INDEX_NAME := by
          intro hcontra
          rw [← hyname] at hcontra
          simp [hcontra] at hyfilt
        constructor
        · rw [hcols]
          have hrne : (r.INDEX_NAME == g.1) = false := by
            cases hb : (r.INDEX_NAME == g.1) with
            | false => rfl
            | true =>
              have hb2 : r.INDEX_NAME = g.1 := by simpa using hb
              exact absurd hb2.symm hkey
          rw [List.filter_filter]
          simp only [List.filter_cons, hrne, Bool.false_eq_true, if_false]
          congr 1
          apply List.filter_congr
          intro a _
          by_cases ha : (a.INDEX_NAME == g.1) = true
          · have hag : a.INDEX_NAME = g.1 := by simpa using ha
            have har : (a.INDEX_NAME == r.INDEX_NAME) = false := by
              cases hb : (a.INDEX_NAME == r.INDEX_NAME) with
              | false => rfl
              | true =>
                have hab : a.INDEX_NAME = r.INDEX_NAME := by simpa using hb
                exact absurd (hag ▸ hab) hkey
            rw [ha, har]
            rfl
          · have haf : (a.INDEX_NAME == g.1) = false := by
              cases hb : (a.INDEX_NAME == g.1) with
              | false => rfl
              | true => exact absurd hb ha
            rw [haf]
            rfl
        · rw [hflag]
          constructor
          · intro hS x hx hname
            rcases List.mem_cons.mp hx with rfl | hx2
            · exact absurd hname.symm hkey
            · have hxrf : (x.INDEX_NAME == r.INDEX_NAME) = false := by
                cases hb : (x.INDEX_NAME == r.INDEX_NAME) with
                | false => rfl
                | true =>
                  have hab : x.INDEX_NAME = r.INDEX_NAME := by simpa using hb
                  exact absurd (hname ▸ hab) hkey
              have hxS : x ∈ rest.filter (fun y => !(y.INDEX_NAME == r.INDEX_NAME)) :=
                List.mem_filter.mpr ⟨hx2, by simp [hxrf]⟩
              exact hS x hxS hname
          · intro hall x hxS hname
            exact hall x (List.mem_cons_of_mem r (List.mem_of_mem_filter hxS)) hname

/-- C2.  The rendered Indexes block has one line per distinct index name in
first-seen order; each group lists its columns in catalog row order; and
(under the catalog invariant that all rows of one index name share the
uniqueness flag, since `is_unique` comes from `sys.indexes`) the `(UNIQUE)`
suffix — governed by the group's flag in `renderIndexLine` — appears iff
every contributing row's flag is true. -/
theorem indexes_block_grouping (rows : List IndexRow)
    (h : ∀ r1 ∈ rows, ∀ r2 ∈ rows, r1.INDEX_NAME = r2.INDEX_NAME →
      r1.is_unique = r2.is_unique) :
    (groupIndexes rows).map (fun g => g.1) = firstSeenNames rows ∧
    (∀ g ∈ groupIndexes rows,
      g.2.1 = (rows.filter (fun x => x.INDEX_NAME == g.1)).map (fun x => x.COLUMN_NAME) ∧
      (g.2.2 = true ↔ ∀ x ∈ rows, x.INDEX_NAME = g.1 → x.is_unique = true)) ∧
    (rows ≠ [] →
      ixPart rows =
        "\nIndexes:\n" ++ String.join ((groupIndexes rows).map renderIndexLine)) := by
  refine ⟨groupIndexes_names rows, groupIndexes_groups rows h, ?_⟩
  intro hne
  rw [ixPart, if_pos (by simpa [List.length_pos] using hne)]

/-- Witness for C2 at a concrete catalog answer: two rows of a unique index
`IX_A` interleaved with one row of a non-unique `IX_B`. -/
theorem indexes_block_grouping_witness :
    (∀ r1 ∈ ([⟨"IX_A", "colA", true⟩, ⟨"IX_B", "colB", false⟩,
        ⟨"IX_A", "colC", true⟩] : List IndexRow),
      ∀ r2 ∈ ([⟨"IX_A", "colA", true⟩, ⟨"IX_B", "colB", false⟩,
        ⟨"IX_A", "colC", true⟩] : List IndexRow),
      r1.INDEX_NAME = r2.INDEX_NAME → r1.is_unique = r2.is_unique) ∧
    ((groupIndexes [⟨"IX_A", "colA", true⟩, ⟨"IX_B", "colB", false⟩,
        ⟨"IX_A", "colC", true⟩]).map (fun g => g.1) =
      firstSeenNames [⟨"IX_A", "colA", true⟩, ⟨"IX_B", "colB", false⟩,
        ⟨"IX_A", "colC", true⟩] ∧
    (∀ g ∈ groupIndexes [⟨"IX_A", "colA", true⟩, ⟨"IX_B", "colB", false⟩,
        ⟨"IX_A", "colC", true⟩],
      g.2.1 = (([⟨"IX_A", "colA", true⟩, ⟨"IX_B", "colB", false⟩,
          ⟨"IX_A", "colC", true⟩] : List IndexRow).filter
          (fun x => x.INDEX_NAME == g.1)).map (fun x => x.COLUMN_NAME) ∧
      (g.2.2 = true ↔ ∀ x ∈ ([⟨"IX_A", "colA", true⟩, ⟨"IX_B", "colB", false⟩,
          ⟨"IX_A", "colC", true⟩] : List IndexRow),
          x.INDEX_NAME = g.1 → x.is_unique = true)) ∧
    (([⟨"IX_A", "colA", true⟩, ⟨"IX_B", "colB", false⟩,
        ⟨"IX_A", "colC", true⟩] : List IndexRow) ≠ [] →
      ixPart [⟨"IX_A", "colA", true⟩, ⟨"IX_B", "colB", false⟩, ⟨"IX_A", "colC", true⟩] =
        "\nIndexes:\n" ++ String.join
          ((groupIndexes [⟨"IX_A", "colA", true⟩, ⟨"IX_B", "colB", false⟩,
            ⟨"IX_A", "colC", true⟩]).map renderIndexLine))) :=
  ⟨by decide, indexes_block_grouping _ (by decide)⟩

end AzureSqlAssistant
